import Mathlib

/-!
Verification of the gifomatic job orchestration and streaming engine.

Shallow embedding of the rate limiter, content cache, admission control,
scene subdivision, filename validation, merge entry conditions and the
per-job event channel from `app.py` and `video_processor.py`.
Filenames are modelled as `List Char` (Python `str` is a sequence of
characters), times and durations as `ℚ` (the concrete values the spec's
examples use are exactly representable), and machine-independent external
collaborators (filesystem, ffmpeg, uuid library) as explicit parameters.
-/

namespace Gifomatic

/-! ### Safe filename check (`app.py`, `is_safe_filename`) -/

/-- One character of the regex class `[a-zA-Z0-9_\-]`. -/
def isWordChar (c : Char) : Bool :=
  ('a' ≤ c && c ≤ 'z') || ('A' ≤ c && c ≤ 'Z') || ('0' ≤ c && c ≤ '9')
    || (c == '_') || (c == '-')

/-- A character rejected by the explicit separator check of
`is_safe_filename`: `/`, `\` or the NUL byte. -/
def isSepChar (c : Char) : Bool :=
  (c == '/') || (c == '\\') || (c == Char.ofNat 0)

/-- `'..' in filename`: two consecutive dots occur somewhere. -/
def hasDoubleDot : List Char → Bool
  | [] => false
  | [_] => false
  | a :: b :: t => (a == '.' && b == '.') || hasDoubleDot (b :: t)

/-- The character list `.gif`. -/
def gifExtLower : List Char := ['.', 'g', 'i', 'f']

/-- The character list `.GIF`. -/
def gifExtUpper : List Char := ['.', 'G', 'I', 'F']

/-- Matches the tail `\.(gif|GIF)$` of the filename regex. Python's
`$` anchor matches at the end of the string or just before a newline
that ends the string, so `re.match` also accepts the extension followed
by one final newline character. -/
def matchExt (l : List Char) : Bool :=
  (l == gifExtLower) || (l == gifExtUpper) ||
    (l == gifExtLower ++ ['\n']) || (l == gifExtUpper ++ ['\n'])

/-- Matches the full filename regex `^[a-zA-Z0-9_\-]+\.(gif|GIF)$`:
at least one word character, then the extension. -/
def matchPat : List Char → Bool
  | [] => false
  | c :: rest => isWordChar c && (matchExt rest || matchPat rest)

/-- `is_safe_filename` (`app.py` lines 146-158): non-empty, no path
separator or NUL, no `..` sequence, and the filename regex matches.
The Python function runs these checks as successive early returns,
which is the same as this conjunction. -/
def is_safe_filename (l : List Char) : Bool :=
  !(l.isEmpty) && !(l.any isSepChar) && !(hasDoubleDot l) && matchPat l

/-- Grammar the claim states, read literally: one or more
word characters followed by the fixed lowercase `.gif` extension. -/
def ClaimSafeGrammar (l : List Char) : Prop :=
  ∃ stem : List Char, stem ≠ [] ∧ (∀ c ∈ stem, isWordChar c = true) ∧
    l = stem ++ gifExtLower

/-- The extension tails the code's regex accepts: `.gif` or `.GIF`,
each optionally followed by the single trailing newline that Python's
`$` anchor tolerates. -/
def isExtTail (ext : List Char) : Prop :=
  ext = gifExtLower ∨ ext = gifExtUpper ∨
    ext = gifExtLower ++ ['\n'] ∨ ext = gifExtUpper ++ ['\n']

/-- Grammar actually implemented: one or more word characters followed
by `.gif` or `.GIF` (exactly these two spellings of the extension),
optionally followed by one trailing newline. -/
def SafeGrammar (l : List Char) : Prop :=
  ∃ stem ext : List Char, stem ≠ [] ∧ (∀ c ∈ stem, isWordChar c = true) ∧
    isExtTail ext ∧ l = stem ++ ext

lemma wordChar_not_sep {c : Char} (h : isWordChar c = true) : isSepChar c = false := by
  by_contra hne
  have hsep : isSepChar c = true := by
    cases hb : isSepChar c
    · exact absurd hb hne
    · rfl
  unfold isSepChar at hsep
  simp only [Bool.or_eq_true, beq_iff_eq] at hsep
  rcases hsep with (hc | hc) | hc <;> subst hc <;> simp [isWordChar] at h

lemma wordChar_ne_dot {c : Char} (h : isWordChar c = true) : c ≠ '.' := by
  intro hc
  subst hc
  revert h
  decide

lemma matchExt_iff (l : List Char) : matchExt l = true ↔ isExtTail l := by
  unfold matchExt isExtTail
  simp [or_assoc]

/-- Decomposition of a successful regex match into stem and extension. -/
lemma matchPat_iff (l : List Char) :
    matchPat l = true ↔
      ∃ stem ext : List Char, stem ≠ [] ∧ (∀ c ∈ stem, isWordChar c = true) ∧
        isExtTail ext ∧ l = stem ++ ext := by
  induction l with
  | nil =>
    simp only [matchPat]
    constructor
    · intro h
      exact absurd h (by decide)
    · rintro ⟨stem, ext, hne, _, _, heq⟩
      cases stem with
      | nil => exact absurd rfl hne
      | cons a t => simp at heq
  | cons c rest ih =>
    simp only [matchPat, Bool.and_eq_true, Bool.or_eq_true]
    constructor
    · rintro ⟨hw, hrest | hrest⟩
      · exact ⟨[c], rest, by simp, by simpa using hw, (matchExt_iff rest).mp hrest, by simp⟩
      · obtain ⟨stem, ext, hne, hall, hext, heq⟩ := ih.mp hrest
        refine ⟨c :: stem, ext, by simp, ?_, hext, by simp [heq]⟩
        intro x hx
        rcases List.mem_cons.mp hx with hx | hx
        · subst hx; exact hw
        · exact hall x hx
    · rintro ⟨stem, ext, hne, hall, hext, heq⟩
      cases stem with
      | nil => exact absurd rfl hne
      | cons a t =>
        simp only [List.cons_append, List.cons.injEq] at heq
        obtain ⟨hc, hrest⟩ := heq
        subst hc
        refine ⟨hall c (by simp), ?_⟩
        cases t with
        | nil =>
          left
          simp only [List.nil_append] at hrest
          subst hrest
          exact (matchExt_iff _).mpr hext
        | cons b t2 =>
          right
          apply ih.mpr
          refine ⟨b :: t2, ext, by simp, ?_, hext, by simpa using hrest⟩
          intro x hx
          exact hall x (List.mem_cons_of_mem _ hx)

lemma no_sep_of_grammar {stem ext : List Char} (hall : ∀ c ∈ stem, isWordChar c = true)
    (hext : isExtTail ext) :
    (stem ++ ext).any isSepChar = false := by
  rw [List.any_eq_false]
  intro c hc
  rcases List.mem_append.mp hc with hc | hc
  · simp [wordChar_not_sep (hall c hc)]
  · rcases hext with hext | hext | hext | hext <;> subst hext
    · exact (by decide : ∀ x ∈ gifExtLower, ¬isSepChar x = true) c hc
    · exact (by decide : ∀ x ∈ gifExtUpper, ¬isSepChar x = true) c hc
    · exact (by decide : ∀ x ∈ gifExtLower ++ ['\n'], ¬isSepChar x = true) c hc
    · exact (by decide : ∀ x ∈ gifExtUpper ++ ['\n'], ¬isSepChar x = true) c hc

lemma no_doubleDot_of_grammar {stem ext : List Char}
    (hall : ∀ c ∈ stem, isWordChar c = true)
    (hext : isExtTail ext) :
    hasDoubleDot (stem ++ ext) = false := by
  induction stem with
  | nil =>
    rcases hext with hext | hext | hext | hext <;> subst hext <;> decide
  | cons a t ih =>
    have ha : isWordChar a = true := hall a (by simp)
    have hne : (a == '.') = false := by
      simp only [beq_eq_false_iff_ne, ne_eq]
      exact wordChar_ne_dot ha
    have ih2 := ih (fun c hc => hall c (List.mem_cons_of_mem a hc))
    cases t with
    | nil =>
      rcases hext with hext | hext | hext | hext <;> subst hext <;>
        simp [hasDoubleDot, hne]
    | cons b t2 =>
      simp only [List.cons_append, hasDoubleDot, hne, Bool.false_and, Bool.false_or]
      simpa using ih2

/-- `is_safe_filename` accepts exactly the implemented grammar: the first
three checks are redundant given the regex. -/
theorem is_safe_filename_iff (l : List Char) :
    is_safe_filename l = true ↔ SafeGrammar l := by
  unfold is_safe_filename SafeGrammar
  constructor
  · intro h
    simp only [Bool.and_eq_true] at h
    exact (matchPat_iff l).mp h.2
  · intro h
    obtain ⟨stem, ext, hne, hall, hext, heq⟩ := h
    subst heq
    have hpat : matchPat (stem ++ ext) = true :=
      (matchPat_iff _).mpr ⟨stem, ext, hne, hall, hext, rfl⟩
    have hempty : (stem ++ ext).isEmpty = false := by
      cases stem with
      | nil => exact absurd rfl hne
      | cons a t => simp
    simp only [hempty, no_sep_of_grammar hall hext, no_doubleDot_of_grammar hall hext, hpat,
      Bool.not_false, Bool.and_true, Bool.true_and, Bool.and_self]

/-! ### Clip filenames (`video_processor.py`, `process_video` step 3) -/

/-- The decimal digit `d` as a character (`d` is always below ten where
this is used, since it comes from `Nat.digits 10`). -/
def digitChar (d : ℕ) : Char :=
  match d with
  | 0 => '0' | 1 => '1' | 2 => '2' | 3 => '3' | 4 => '4'
  | 5 => '5' | 6 => '6' | 7 => '7' | 8 => '8' | _ => '9'

/-- Decimal digit characters of `n`, most significant first (what
Python `str(n)` prints for a non-negative int). -/
def natChars (n : ℕ) : List Char :=
  if n = 0 then ['0'] else ((Nat.digits 10 n).map digitChar).reverse

/-- `f"{idx:04d}"`: decimal digits left-padded with `0` to width 4. -/
def pad4 (n : ℕ) : List Char :=
  List.replicate (4 - (natChars n).length) '0' ++ natChars n

/-- `f"clip_{idx:04d}.gif"`, the generated name of the idx-th artifact. -/
def clipName (idx : ℕ) : List Char :=
  ('c' :: 'l' :: 'i' :: 'p' :: '_' :: pad4 idx) ++ gifExtLower

lemma digitChar_word (d : ℕ) : isWordChar (digitChar d) = true := by
  unfold digitChar
  split <;> decide

lemma natChars_word (n : ℕ) : ∀ c ∈ natChars n, isWordChar c = true := by
  intro c hc
  unfold natChars at hc
  by_cases h : n = 0
  · simp [h] at hc
    subst hc
    decide
  · simp only [h, if_false, List.mem_reverse, List.mem_map] at hc
    obtain ⟨d, _, hd⟩ := hc
    subst hd
    exact digitChar_word d

lemma pad4_word (n : ℕ) : ∀ c ∈ pad4 n, isWordChar c = true := by
  intro c hc
  rcases List.mem_append.mp hc with hc | hc
  · have := List.eq_of_mem_replicate hc
    subst this
    decide
  · exact natChars_word n c hc

/-- Every generated clip filename passes `is_safe_filename`, so the
defensive check in `process_video_task` never drops an artifact. -/
theorem clipName_safe (idx : ℕ) : is_safe_filename (clipName idx) = true := by
  apply (is_safe_filename_iff _).mpr
  refine ⟨'c' :: 'l' :: 'i' :: 'p' :: '_' :: pad4 idx, gifExtLower, by simp, ?_, Or.inl rfl, rfl⟩
  intro c hc
  simp only [List.mem_cons] at hc
  rcases hc with hc | hc | hc | hc | hc | hc
  · subst hc; decide
  · subst hc; decide
  · subst hc; decide
  · subst hc; decide
  · subst hc; decide
  · exact pad4_word idx c hc

/-! ### Event channel and worker task
(`app.py`, `process_video_task` and `stream`)

A job run writes events into its queue. `process_video_task` iterates
the generator `process_video`; before handling each yielded artifact it
checks the cancellation set, and afterwards it emits exactly one of
`complete` / `error` / `cancelled`. The generator's behaviour is
abstracted as the list of artifact basenames it yields, plus a flag
saying whether it raises instead of finishing (a mid-run exception is
the case where the yield list is the successful prefix). Cancellation
is cooperative: `cancelAt = some k` means the job is observed in
`cancelled_jobs` from loop iteration `k` on. -/

/-- The discriminated Event messages of §3 that are written to (or
synthesized on) the per-job queue. -/
inductive Event where
  | gif (filename : List Char)
  | complete (total : ℕ)
  | error
  | cancelled
  | keepalive
deriving DecidableEq

/-- Is the cancellation flag visible at loop iteration `i`? -/
def cancelledAt (cancelAt : Option ℕ) (i : ℕ) : Bool :=
  match cancelAt with
  | some k => decide (k ≤ i)
  | none => false

/-- A terminal event: `complete`, `error` or `cancelled`. -/
def isTerminal : Event → Bool
  | Event.complete _ => true
  | Event.error => true
  | Event.cancelled => true
  | _ => false

/-- Loop body of `process_video_task` (`app.py` lines 556-597): for each
yielded artifact, first check cancellation (emit `cancelled` and stop),
then validate the filename (skip silently when unsafe), else record the
artifact and emit a `gif` event; after the loop emit `error` if the
generator raised, else `complete` with the artifact count. Returns the
event sequence written to the queue and the final artifact list. -/
def taskGo (raises : Bool) (cancelAt : Option ℕ) :
    ℕ → List (List Char) → List (List Char) → List Event × List (List Char)
  | _, arts, [] =>
    (if raises then [Event.error] else [Event.complete arts.length], arts)
  | i, arts, f :: rest =>
    if cancelledAt cancelAt i then ([Event.cancelled], arts)
    else if is_safe_filename f then
      let r := taskGo raises cancelAt (i + 1) (arts ++ [f]) rest
      (Event.gif f :: r.1, r.2)
    else taskGo raises cancelAt (i + 1) arts rest

/-- One full run of `process_video_task` over the yielded artifacts. -/
def taskRun (yields : List (List Char)) (raises : Bool) (cancelAt : Option ℕ) :
    List Event × List (List Char) :=
  taskGo raises cancelAt 0 [] yields

/-- The events written to the job queue by one run. -/
def taskEvents (yields : List (List Char)) (raises : Bool) (cancelAt : Option ℕ) :
    List Event :=
  (taskRun yields raises cancelAt).1

/-- The reader loop of the `stream` endpoint (`app.py` lines 627-641)
stops only on a `complete` or `error` message. -/
def readerStopsOn : Event → Bool
  | Event.complete _ => true
  | Event.error => true
  | _ => false

/-- Observer of the live status stream: consumes queued events in
order; returns the events it delivers and whether its loop terminates
(if not, it blocks on the drained queue emitting keepalives forever). -/
def readerTrace : List Event → List Event × Bool
  | [] => ([], false)
  | e :: rest =>
    if readerStopsOn e then ([e], true)
    else
      let r := readerTrace rest
      (e :: r.1, r.2)

/-- Every run's event sequence is some `gif` events followed by exactly
one terminal event. -/
lemma taskGo_shape (raises : Bool) (cancelAt : Option ℕ) :
    ∀ (l : List (List Char)) (i : ℕ) (arts : List (List Char)),
      ∃ gs : List (List Char), ∃ t : Event,
        (taskGo raises cancelAt i arts l).1 = gs.map Event.gif ++ [t] ∧
        (t = Event.cancelled ∨ t = Event.error ∨ ∃ n, t = Event.complete n) := by
  intro l
  induction l with
  | nil =>
    intro i arts
    by_cases hr : raises
    · exact ⟨[], Event.error, by simp [taskGo, hr], Or.inr (Or.inl rfl)⟩
    · exact ⟨[], Event.complete arts.length, by simp [taskGo, hr],
        Or.inr (Or.inr ⟨arts.length, rfl⟩)⟩
  | cons f rest ih =>
    intro i arts
    by_cases hc : cancelledAt cancelAt i = true
    · exact ⟨[], Event.cancelled, by simp [taskGo, hc], Or.inl rfl⟩
    · by_cases hs : is_safe_filename f = true
      · obtain ⟨gs, t, heq, ht⟩ := ih (i + 1) (arts ++ [f])
        refine ⟨f :: gs, t, ?_, ht⟩
        simp [taskGo, hc, hs, heq]
      · obtain ⟨gs, t, heq, ht⟩ := ih (i + 1) arts
        refine ⟨gs, t, ?_, ht⟩
        simp [taskGo, hc, hs, heq]

/-- The stream reader passes `gif` events through and reacts to the
final event according to `readerStopsOn`. -/
lemma readerTrace_gifs (gs : List (List Char)) (t : Event) :
    readerTrace (gs.map Event.gif ++ [t]) = (gs.map Event.gif ++ [t], readerStopsOn t) := by
  induction gs with
  | nil =>
    by_cases ht : readerStopsOn t = true
    · simp [readerTrace, ht]
    · simp only [Bool.not_eq_true] at ht
      simp [readerTrace, ht]
  | cons g gs ih =>
    simp [readerTrace, readerStopsOn, ih]

lemma terminal_of_cases {t : Event}
    (ht : t = Event.cancelled ∨ t = Event.error ∨ ∃ n, t = Event.complete n) :
    isTerminal t = true := by
  rcases ht with ht | ht | ⟨n, ht⟩ <;> subst ht <;> rfl

/-- `process_video` (`video_processor.py` lines 542-571): each detected
clip is encoded in index order; an index whose ffmpeg invocation fails
(or whose output file is missing) is skipped with a log line, every
successful index yields the artifact `clip_{idx:04d}.gif`. `encOk i`
abstracts success of the external encoder on clip `i`. -/
def processVideoYields (clips : List (ℚ × ℚ)) (encOk : ℕ → Bool) : List (List Char) :=
  clips.enum.filterMap (fun p => if encOk p.1 then some (clipName p.1) else none)

lemma processVideoYields_safe (clips : List (ℚ × ℚ)) (encOk : ℕ → Bool) :
    ∀ f ∈ processVideoYields clips encOk, is_safe_filename f = true := by
  intro f hf
  unfold processVideoYields at hf
  obtain ⟨p, _, hp⟩ := List.mem_filterMap.mp hf
  by_cases h : encOk p.1 = true
  · simp only [h, if_true, Option.some.injEq] at hp
    subst hp
    exact clipName_safe p.1
  · simp [h] at hp

/-- When every yielded filename is safe and no cancellation occurs, the
task emits one `gif` event per artifact, appends each artifact in order,
and finishes with `complete`. -/
lemma taskGo_no_cancel (raises : Bool) :
    ∀ (l : List (List Char)) (i : ℕ) (arts : List (List Char)),
      (∀ f ∈ l, is_safe_filename f = true) →
      taskGo raises none i arts l =
        (l.map Event.gif ++
          [if raises then Event.error else Event.complete (arts.length + l.length)],
         arts ++ l) := by
  intro l
  induction l with
  | nil =>
    intro i arts _
    by_cases hr : raises <;> simp [taskGo, hr]
  | cons f rest ih =>
    intro i arts hsafe
    have hs : is_safe_filename f = true := hsafe f (by simp)
    have hrest : ∀ g ∈ rest, is_safe_filename g = true :=
      fun g hg => hsafe g (List.mem_cons_of_mem _ hg)
    have hc : cancelledAt none i = false := rfl
    simp only [taskGo, hc, Bool.false_eq_true, if_false, hs, if_true,
      ih (i + 1) (arts ++ [f]) hrest, Prod.mk.injEq]
    constructor
    · have : arts.length + 1 + rest.length = arts.length + (rest.length + 1) := by omega
      simp [this]
    · simp

/-! ### Rate limiter (`app.py`, `check_rate_limit`)

One per-client record; times are rationals. The opportunistic trim of
other clients' already-expired records (lines 326-331) only deletes
records whose window has passed and never changes the return value or
the current client's freshly written record, so the per-record function
below is the whole observable contract of one call. -/

/-- The per-IP record `{'count', 'upload_count', 'reset_time'}`. -/
structure RLRecord where
  count : ℕ
  uploadCount : ℕ
  resetTime : ℚ
deriving DecidableEq

/-- `check_rate_limit` (`app.py` lines 294-333) for one client: `rec` is
the client's current record (`none` when untracked), `t` the current
time. Returns whether the request is admitted and the record stored
afterwards. Window reset fires only when `t` is strictly past
`reset_time`; ceilings are compared with `>=`. -/
def check_rate_limit (maxReq maxUp : ℕ) (window : ℚ) (rec : Option RLRecord)
    (t : ℚ) (isUpload : Bool) : Bool × RLRecord :=
  match rec with
  | some r =>
    let r1 := if r.resetTime < t then ⟨0, 0, t + window⟩ else r
    if maxReq ≤ r1.count then (false, r1)
    else if isUpload && decide (maxUp ≤ r1.uploadCount) then (false, r1)
    else (true, ⟨r1.count + 1, if isUpload then r1.uploadCount + 1 else r1.uploadCount,
      r1.resetTime⟩)
  | none => (true, ⟨1, if isUpload then 1 else 0, t + window⟩)

/-! ### Admission control race (`app.py`, `upload_video`)

The capacity check (lines 419-422) and the insertion into `active_jobs`
(lines 516-520) are two separate `jobs_lock` critical sections with the
lock released in between, so a submission is modelled as two atomic
steps: `check` then `add`. A schedule interleaves the steps of several
submissions; each list entry names the submission whose next step runs. -/

/-- Program counter of one submission request. -/
inductive SubPC where
  | start
  | passed
  | added
  | rejected
deriving DecidableEq

/-- Global state: size of `active_jobs` plus each submission's progress. -/
structure AdmState where
  active : ℕ
  pcs : List SubPC
deriving DecidableEq

/-- One scheduler step: run the next atomic section of submission `i`.
At `start` the capacity check runs (reject when `ceiling ≤ active`,
else fall through); at `passed` the job is added to the active set
without re-checking capacity. -/
def admStep (ceiling : ℕ) (st : AdmState) (i : ℕ) : AdmState :=
  match st.pcs[i]? with
  | some SubPC.start =>
    if ceiling ≤ st.active then ⟨st.active, st.pcs.set i SubPC.rejected⟩
    else ⟨st.active, st.pcs.set i SubPC.passed⟩
  | some SubPC.passed => ⟨st.active + 1, st.pcs.set i SubPC.added⟩
  | _ => st

/-- Run `n` concurrent submissions under schedule `sched`. -/
def execSubmissions (ceiling n : ℕ) (sched : List ℕ) : AdmState :=
  sched.foldl (admStep ceiling) ⟨0, List.replicate n SubPC.start⟩

/-! ### Merge entry conditions (`video_processor.py`, `merge_gifs_grid`)

Only the control flow up to the choice of action matters for the claim;
the filesystem and ffmpeg are abstracted: `outPathOk` is whether
`sanitize_path(output_path)` succeeds, `valid p` whether
`sanitize_path(p)` succeeds and the file exists. -/

/-- What `merge_gifs_grid` decides to do with its inputs. -/
inductive MergeOutcome where
  | failed
  | copiedSingle
  | invokedFfmpeg (n : ℕ)
deriving DecidableEq

/-- Control flow of `merge_gifs_grid` (`video_processor.py` lines
380-414): empty input fails, invalid output path fails, fewer than two
valid inputs fails, then the list is truncated to 20; a single
remaining path would be copied, otherwise ffmpeg concatenates them. -/
def merge_gifs_grid {P : Type} (outPathOk : Bool) (valid : P → Bool)
    (gifPaths : List P) : MergeOutcome :=
  if gifPaths.isEmpty then MergeOutcome.failed
  else if !outPathOk then MergeOutcome.failed
  else
    let safePaths := gifPaths.filter valid
    if safePaths.length < 2 then MergeOutcome.failed
    else
      let capped := safePaths.take 20
      if capped.length = 1 then MergeOutcome.copiedSingle
      else MergeOutcome.invokedFfmpeg capped.length

/-! ### Content cache (`app.py`, `video_cache` and `upload_video`)

`video_cache` is a Python dict: an insertion-ordered association list
with distinct keys. Fingerprints and job identifiers are abstracted to
naturals. -/

/-- Association-list lookup, `video_cache.get(cache_key)`. -/
def alookup : List (ℕ × ℕ) → ℕ → Option ℕ
  | [], _ => none
  | p :: rest, k => if p.1 = k then some p.2 else alookup rest k

/-- `del video_cache[key]`: remove the entry for `key` (dicts hold at
most one entry per key, so removing the first occurrence is exact). -/
def eraseKey (c : List (ℕ × ℕ)) (k : ℕ) : List (ℕ × ℕ) :=
  c.eraseP (fun p => p.1 == k)

/-- `video_cache[key] = v`: dict assignment updates in place when the
key is present (keeping its position) and appends otherwise. -/
def dictInsert (c : List (ℕ × ℕ)) (k v : ℕ) : List (ℕ × ℕ) :=
  if k ∈ c.map Prod.fst then c.map (fun p => if p.1 = k then (k, v) else p)
  else c ++ [(k, v)]

/-- Delete the listed keys one after another. -/
def delKeys (c : List (ℕ × ℕ)) (ks : List ℕ) : List (ℕ × ℕ) :=
  ks.foldl eraseKey c

/-- The cache store of `upload_video` (`app.py` lines 522-533): insert
the new entry, then, when the entry count exceeds `maxStored`, delete
`list(video_cache.keys())[:len(video_cache) - maxStored]` — the
oldest-inserted keys first. -/
def cacheStore (c : List (ℕ × ℕ)) (k v : ℕ) (maxStored : ℕ) : List (ℕ × ℕ) :=
  let c1 := dictInsert c k v
  if maxStored < c1.length then delKeys c1 ((c1.map Prod.fst).take (c1.length - maxStored))
  else c1

lemma delKeys_take_eq_drop : ∀ (c : List (ℕ × ℕ)) (j : ℕ),
    delKeys c ((c.map Prod.fst).take j) = c.drop j := by
  intro c
  induction c with
  | nil =>
    intro j
    simp [delKeys]
  | cons p rest ih =>
    intro j
    cases j with
    | zero => simp [delKeys]
    | succ j =>
      have h1 : ((p :: rest).map Prod.fst).take (j + 1) = p.1 :: (rest.map Prod.fst).take j := by
        simp
      rw [h1]
      have h2 : eraseKey (p :: rest) p.1 = rest := by
        unfold eraseKey
        rw [List.eraseP_cons_of_pos]
        simp
      show delKeys (p :: rest) (p.1 :: (rest.map Prod.fst).take j) = _
      unfold delKeys
      rw [List.foldl_cons]
      show delKeys (eraseKey (p :: rest) p.1) ((rest.map Prod.fst).take j) = _
      rw [h2, ih j]
      simp

lemma delKeys_sublist : ∀ (ks : List ℕ) (c : List (ℕ × ℕ)), (delKeys c ks).Sublist c := by
  intro ks
  induction ks with
  | nil =>
    intro c
    simp [delKeys]
  | cons k rest ih =>
    intro c
    unfold delKeys
    rw [List.foldl_cons]
    exact List.Sublist.trans (ih (eraseKey c k)) (List.eraseP_sublist c)

lemma cacheStore_mem_insert {c : List (ℕ × ℕ)} {k v m : ℕ} {p : ℕ × ℕ}
    (hp : p ∈ cacheStore c k v m) : p ∈ dictInsert c k v := by
  unfold cacheStore at hp
  by_cases h : m < (dictInsert c k v).length
  · simp only [h, if_true] at hp
    exact (delKeys_sublist _ _).mem hp
  · simpa [h] using hp

lemma alookup_mem : ∀ {c : List (ℕ × ℕ)} {k v : ℕ}, alookup c k = some v → (k, v) ∈ c := by
  intro c
  induction c with
  | nil =>
    intro k v h
    simp [alookup] at h
  | cons p rest ih =>
    intro k v h
    unfold alookup at h
    by_cases hk : p.1 = k
    · simp only [hk, if_true, Option.some.injEq] at h
      subst h
      have hpe : (k, p.2) = p := by
        rw [← hk]
      rw [hpe]
      exact List.mem_cons_self _ _
    · simp only [hk, if_false] at h
      exact List.mem_cons_of_mem _ (ih h)

/-- Fresh-job path of `upload_video`: the new identifier is returned,
the fingerprint now maps to it, a queue is created and the worker
thread is started. -/
structure UploadResult where
  jobId : ℕ
  cached : Bool
  cacheAfter : List (ℕ × ℕ)
  workerStarted : Bool
deriving DecidableEq

/-- Primary (clip-prefixed) artifacts of a job directory listing, as
collected by `get_cached_gifs` (`app.py` lines 195-231): files ending
in `.gif` that pass `is_safe_filename` and start with `clip_`. -/
def clipArtifacts (listing : List (List Char)) : List (List Char) :=
  listing.filter (fun f =>
    gifExtLower.isSuffixOf f && is_safe_filename f &&
      ('c' :: 'l' :: 'i' :: 'p' :: '_' :: []).isPrefixOf f)

/-- Continuation of `upload_video` after a cache miss (`app.py` lines
486-543): generate a fresh identifier, register the job, store the
fingerprint and launch the worker. -/
def freshJobPath (cache : List (ℕ × ℕ)) (key fresh maxStored : ℕ) : UploadResult :=
  ⟨fresh, false, cacheStore cache key fresh maxStored, true⟩

/-- Cache consultation of `upload_video` (`app.py` lines 448-543):
look the fingerprint up; on a hit whose job still has primary
artifacts, return the cached identifier without processing; on a hit
whose artifacts are gone, delete the stale entry and fall through to
the fresh-job path; on a miss, go to the fresh-job path directly.
`validU` abstracts `is_valid_uuid`, `disk j` the listing of job `j`'s
output directory, `fresh` the identifier drawn from `uuid.uuid4()`. -/
def uploadCacheFlow (cache : List (ℕ × ℕ)) (key : ℕ) (validU : ℕ → Bool)
    (disk : ℕ → List (List Char)) (fresh maxStored : ℕ) : UploadResult :=
  match alookup cache key with
  | some j =>
    if validU j then
      if !(clipArtifacts (disk j)).isEmpty then ⟨j, true, cache, false⟩
      else freshJobPath (eraseKey cache key) key fresh maxStored
    else freshJobPath cache key fresh maxStored
  | none => freshJobPath cache key fresh maxStored

/-! ### Scene subdivision (`video_processor.py`, `split_long_scenes`)

Scene boundaries are rational times. `validate_numeric_param` clamps the
requested maximum duration into `[1, 30]`, so the chunking loop always
runs with a positive step; the guard `0 < m` in `chunkFrom` below only
serves the termination argument and is always true at call sites. -/

/-- `validate_numeric_param(x, 1.0, 30.0, default)` on a numeric input:
`max(1.0, min(30.0, x))`. -/
def clampDuration (m : ℚ) : ℚ := max 1 (min 30 m)

/-- The inner `while current < end` loop of `split_long_scenes`
(`video_processor.py` lines 193-203): emit chunks `(current,
min(current + m, end))` until the scene is exhausted, breaking early
once the clip cap `mc` is reached (`len` is the number of refined
scenes already collected before this chunk loop, the cap check runs
after each append). -/
def chunkFrom (m e : ℚ) (mc : ℕ) (len : ℕ) (current : ℚ) : List (ℚ × ℚ) :=
  if h : 0 < m ∧ current < e then
    let ce := min (current + m) e
    if 0 < mc ∧ mc ≤ len + 1 then [(current, ce)]
    else (current, ce) :: chunkFrom m e mc (len + 1) ce
  else []
termination_by (Int.ceil ((e - current) / m)).toNat
decreasing_by
  obtain ⟨hm, hce⟩ := h
  rcases le_or_lt e (current + m) with hle | hlt
  · rw [min_eq_right hle]
    have hpos : 0 < (e - current) / m := div_pos (by linarith) hm
    have h1 : 0 < Int.ceil ((e - current) / m) := Int.ceil_pos.mpr hpos
    have h0 : e - e = 0 := by ring
    rw [h0]
    simp only [zero_div, Int.ceil_zero, Int.toNat_zero]
    omega
  · rw [min_eq_left hlt.le]
    have key : (e - (current + m)) / m = (e - current) / m - 1 := by
      have hm0 : m ≠ 0 := ne_of_gt hm
      field_simp
      ring
    rw [key, Int.ceil_sub_one]
    have h2 : 1 < (e - current) / m := (one_lt_div hm).mpr (by linarith)
    have h3 : (1 : ℤ) < Int.ceil ((e - current) / m) := by
      rw [Int.lt_ceil]
      exact_mod_cast h2
    omega

/-- The outer `for start, end in scenes` loop of `split_long_scenes`
(`video_processor.py` lines 180-207), carrying the accumulated refined
list: invalid scenes are skipped, short scenes kept, long scenes
chunked, and after each scene the clip cap `mc` stops the loop. -/
def splitGo (m : ℚ) (mc : ℕ) : List (ℚ × ℚ) → List (ℚ × ℚ) → List (ℚ × ℚ)
  | acc, [] => acc
  | acc, (s, e) :: rest =>
    if s < 0 ∨ e ≤ s then splitGo m mc acc rest
    else
      let acc2 := if e - s ≤ m then acc ++ [(s, e)] else acc ++ chunkFrom m e mc acc.length s
      if 0 < mc ∧ mc ≤ acc2.length then acc2 else splitGo m mc acc2 rest

/-- `split_long_scenes(scenes, max_duration)` with the clip cap
`MAX_CLIPS` made an explicit parameter `mc` (0 = no limit, the shipped
default). -/
def split_long_scenes (scenes : List (ℚ × ℚ)) (m : ℚ) (mc : ℕ) : List (ℚ × ℚ) :=
  splitGo (clampDuration m) mc [] scenes

/-- One scene's contribution when no clip cap is in force. -/
def refineOne (m : ℚ) : ℚ × ℚ → List (ℚ × ℚ)
  | (s, e) =>
    if s < 0 ∨ e ≤ s then []
    else if e - s ≤ m then [(s, e)] else chunkFrom m e 0 0 s

/-- The spec's shape of a subdivided long scene: a non-empty run of
consecutive sub-ranges from `s` to `e`, each of positive duration at
most `M`, all but the last of duration exactly `M`. -/
def SpecConsecutiveCover (M s e : ℚ) (cs : List (ℚ × ℚ)) : Prop :=
  cs ≠ [] ∧ cs.head?.map Prod.fst = some s ∧ cs.getLast?.map Prod.snd = some e ∧
    List.Chain' (fun a b => a.2 = b.1) cs ∧
    (∀ r ∈ cs.dropLast, r.2 - r.1 = M) ∧
    (∀ r ∈ cs, 0 < r.2 - r.1 ∧ r.2 - r.1 ≤ M)

lemma chunkFrom_duration_le (m e : ℚ) (mc len : ℕ) (current : ℚ) :
    ∀ r ∈ chunkFrom m e mc len current, r.2 - r.1 ≤ m := by
  induction len, current using chunkFrom.induct m e mc with
  | case1 len current h hbreak =>
    intro r hr
    rw [chunkFrom, dif_pos h] at hr
    simp only [if_pos hbreak, List.mem_singleton] at hr
    subst hr
    have hmin : min (current + m) e ≤ current + m := min_le_left _ _
    simp only []
    linarith
  | case2 len current h ce hnb ih =>
    intro r hr
    rw [chunkFrom, dif_pos h] at hr
    simp only [if_neg hnb] at hr
    rcases List.mem_cons.mp hr with hr | hr
    · subst hr
      have hmin : min (current + m) e ≤ current + m := min_le_left _ _
      simp only []
      linarith
    · exact ih r hr
  | case3 len current h =>
    intro r hr
    rw [chunkFrom, dif_neg h] at hr
    simp at hr

lemma chunkFrom_len_irrel (m e : ℚ) (len : ℕ) (current : ℚ) :
    ∀ len', chunkFrom m e 0 len current = chunkFrom m e 0 len' current := by
  induction len, current using chunkFrom.induct m e 0 with
  | case1 len current h hbreak =>
    exact absurd hbreak.1 (by omega)
  | case2 len current h ce hnb ih =>
    intro len'
    rw [chunkFrom, dif_pos h]
    rw [chunkFrom, dif_pos h]
    simp only [if_neg (show ¬((0 : ℕ) < 0 ∧ 0 ≤ len + 1) from by omega),
      if_neg (show ¬((0 : ℕ) < 0 ∧ 0 ≤ len' + 1) from by omega)]
    rw [ih (len' + 1)]
  | case3 len current h =>
    intro len'
    rw [chunkFrom, dif_neg h, chunkFrom, dif_neg h]

lemma chunkFrom_cap (m e : ℚ) (mc : ℕ) :
    ∀ (len : ℕ) (current : ℚ), 0 < mc → len < mc →
      len + (chunkFrom m e mc len current).length ≤ mc := by
  intro len current
  induction len, current using chunkFrom.induct m e mc with
  | case1 len current h hbreak =>
    intro _ hlen
    rw [chunkFrom, dif_pos h]
    simp only [if_pos hbreak, List.length_singleton]
    omega
  | case2 len current h ce hnb ih =>
    intro hmc hlen
    rw [chunkFrom, dif_pos h]
    simp only [if_neg hnb, List.length_cons]
    have hlen2 : len + 1 < mc := by omega
    have hrec := ih hmc hlen2
    unfold ce at hrec
    omega
  | case3 len current h =>
    intro _ hlen
    rw [chunkFrom, dif_neg h]
    simp only [List.length_nil]
    omega

/-- The spec-level shape of one fully chunked long scene: proved for the
uncapped chunk loop below. -/
lemma chunkFrom_cover (m e : ℚ) (hm : 0 < m) :
    ∀ (len : ℕ) (current : ℚ), current < e →
      SpecConsecutiveCover m current e (chunkFrom m e 0 len current) := by
  intro len current
  induction len, current using chunkFrom.induct m e 0 with
  | case1 len current h hbreak =>
    exact absurd hbreak.1 (by omega)
  | case2 len current h ce hnb ih =>
    intro _
    rw [chunkFrom, dif_pos h]
    simp only [if_neg hnb]
    rcases le_or_lt e (current + m) with hle | hlt
    · have hce : min (current + m) e = e := min_eq_right hle
      have hnil : chunkFrom m e 0 (len + 1) (min (current + m) e) = [] := by
        rw [hce, chunkFrom, dif_neg]
        intro hcon
        exact absurd hcon.2 (lt_irrefl e)
      rw [hnil]
      refine ⟨by simp, by simp [hce], by simp [hce], by simp, by simp, ?_⟩
      intro r hr
      simp only [List.mem_singleton] at hr
      subst hr
      constructor
      · simp only [hce]
        linarith [h.2]
      · simp only [hce]
        linarith
    · have hce : min (current + m) e = current + m := min_eq_left hlt.le
      have hcelt : ce < e := by
        unfold ce
        rw [hce]
        exact hlt
      have hcover := ih hcelt
      unfold ce at hcover
      rw [hce] at hcover ⊢
      obtain ⟨hne, hhead, hlast, hchain, hbody, hall⟩ := hcover
      obtain ⟨y, rest', hy⟩ := List.exists_cons_of_ne_nil hne
      rw [hy] at hhead hlast hchain hbody hall ⊢
      have hyfst : y.1 = current + m := by
        simpa using hhead
      refine ⟨by simp, by simp, ?_, ?_, ?_, ?_⟩
      · rw [List.getLast?_cons_cons]
        exact hlast
      · rw [List.chain'_cons]
        exact ⟨by simpa using hyfst.symm, hchain⟩
      · intro r hr
        rw [List.dropLast_cons₂, List.mem_cons] at hr
        rcases hr with hr | hr
        · subst hr
          simp only []
          ring
        · exact hbody r hr
      · intro r hr
        rcases List.mem_cons.mp hr with hr | hr
        · subst hr
          refine ⟨by simp only []; linarith, by simp only []; linarith⟩
        · exact hall r hr
  | case3 len current h =>
    intro hcur
    exact absurd ⟨hm, hcur⟩ h

lemma splitGo_subset_or_le (m : ℚ) (mc : ℕ) :
    ∀ (l acc : List (ℚ × ℚ)) (r : ℚ × ℚ),
      r ∈ splitGo m mc acc l → r ∈ acc ∨ r.2 - r.1 ≤ m := by
  intro l
  induction l with
  | nil =>
    intro acc r hr
    exact Or.inl (by simpa [splitGo] using hr)
  | cons p rest ih =>
    obtain ⟨s, e⟩ := p
    intro acc r hr
    simp only [splitGo] at hr
    by_cases hv : s < 0 ∨ e ≤ s
    · rw [if_pos hv] at hr
      exact ih acc r hr
    · rw [if_neg hv] at hr
      have hmem2 : ∀ x : ℚ × ℚ,
          x ∈ (if e - s ≤ m then acc ++ [(s, e)] else acc ++ chunkFrom m e mc acc.length s) →
          x ∈ acc ∨ x.2 - x.1 ≤ m := by
        intro x hx
        by_cases hd : e - s ≤ m
        · rw [if_pos hd] at hx
          rcases List.mem_append.mp hx with hx | hx
          · exact Or.inl hx
          · right
            simp only [List.mem_singleton] at hx
            subst hx
            simpa using hd
        · rw [if_neg hd] at hx
          rcases List.mem_append.mp hx with hx | hx
          · exact Or.inl hx
          · exact Or.inr (chunkFrom_duration_le m e mc acc.length s x hx)
      by_cases hb : 0 < mc ∧
          mc ≤ (if e - s ≤ m then acc ++ [(s, e)] else acc ++ chunkFrom m e mc acc.length s).length
      · rw [if_pos hb] at hr
        exact hmem2 r hr
      · rw [if_neg hb] at hr
        rcases ih _ r hr with hr2 | hr2
        · exact hmem2 r hr2
        · exact Or.inr hr2

lemma splitGo_cap (m : ℚ) (mc : ℕ) (hmc : 0 < mc) :
    ∀ (l acc : List (ℚ × ℚ)), acc.length < mc → (splitGo m mc acc l).length ≤ mc := by
  intro l
  induction l with
  | nil =>
    intro acc hacc
    simpa [splitGo] using hacc.le
  | cons p rest ih =>
    obtain ⟨s, e⟩ := p
    intro acc hacc
    simp only [splitGo]
    by_cases hv : s < 0 ∨ e ≤ s
    · rw [if_pos hv]
      exact ih acc hacc
    · rw [if_neg hv]
      have hlen2 : (if e - s ≤ m then acc ++ [(s, e)]
          else acc ++ chunkFrom m e mc acc.length s).length ≤ mc := by
        by_cases hd : e - s ≤ m
        · rw [if_pos hd]
          simp only [List.length_append, List.length_singleton]
          omega
        · rw [if_neg hd]
          simp only [List.length_append]
          have := chunkFrom_cap m e mc acc.length s hmc hacc
          omega
      by_cases hb : 0 < mc ∧
          mc ≤ (if e - s ≤ m then acc ++ [(s, e)] else acc ++ chunkFrom m e mc acc.length s).length
      · rw [if_pos hb]
        exact hlen2
      · rw [if_neg hb]
        apply ih
        push_neg at hb
        have := hb hmc
        omega

lemma splitGo_zero (m : ℚ) :
    ∀ (l acc : List (ℚ × ℚ)), splitGo m 0 acc l = acc ++ l.flatMap (refineOne m) := by
  intro l
  induction l with
  | nil =>
    intro acc
    simp [splitGo]
  | cons p rest ih =>
    obtain ⟨s, e⟩ := p
    intro acc
    simp only [splitGo, List.flatMap_cons]
    by_cases hv : s < 0 ∨ e ≤ s
    · rw [if_pos hv, ih acc]
      simp [refineOne, hv]
    · rw [if_neg hv]
      have hnb : ¬(0 < 0 ∧
          0 ≤ (if e - s ≤ m then acc ++ [(s, e)] else acc ++ chunkFrom m 0 0 acc.length s).length) := by
        omega
      by_cases hd : e - s ≤ m
      · simp only [if_pos hd]
        rw [if_neg (by omega), ih]
        simp [refineOne, hv, hd]
      · simp only [if_neg hd]
        rw [if_neg (by omega), ih]
        rw [chunkFrom_len_irrel m e acc.length s 0]
        simp [refineOne, hv, hd]

/-! ## Claim theorems -/

/-- C7 counterexample: the claim's grammar (word characters + the fixed
lowercase `.gif` extension) is not exactly what `is_safe_filename`
accepts — the filename `a.GIF` is accepted by the code but does not
match the claimed grammar, refuting the stated "if and only if". -/
theorem claim_c7_counterexample :
    is_safe_filename ('a' :: gifExtUpper) = true ∧
    ¬ClaimSafeGrammar ('a' :: gifExtUpper) := by
  constructor
  · decide
  · rintro ⟨stem, hne, hall, heq⟩
    have hlastU : ('a' :: gifExtUpper).getLast? = some 'F' := by decide
    rw [heq] at hlastU
    have hsplit : stem ++ gifExtLower = (stem ++ ['.', 'g', 'i']) ++ ['f'] := by
      simp [gifExtLower]
    rw [hsplit, List.getLast?_concat] at hlastU
    have : 'f' = 'F' := by injection hlastU
    exact absurd this (by decide)

/-- C7 amended: `../../etc/passwd.gif` and `a/b.gif` are rejected,
`clip_0001.gif` is accepted, and so is the trailing-newline name
`a.gif\n` (Python's `$` anchor matches before a final newline); in
general a filename is accepted if and only if it is one or more
alphanumeric/underscore/hyphen characters followed by the extension
`.gif` or `.GIF` (exactly these two spellings), optionally followed by
one trailing newline; no accepted name contains a path separator or a
`..` sequence. -/
theorem claim_c7_amended :
    is_safe_filename "../../etc/passwd.gif".data = false ∧
    is_safe_filename "a/b.gif".data = false ∧
    is_safe_filename "clip_0001.gif".data = true ∧
    is_safe_filename ('a' :: (gifExtLower ++ ['\n'])) = true ∧
    (∀ l : List Char, is_safe_filename l = true ↔ SafeGrammar l) ∧
    (∀ l : List Char, is_safe_filename l = true →
      (∀ c ∈ l, isSepChar c = false) ∧ hasDoubleDot l = false) := by
  refine ⟨by decide, by decide, by decide, by decide, is_safe_filename_iff, ?_⟩
  intro l h
  simp only [is_safe_filename, Bool.and_eq_true, Bool.not_eq_true'] at h
  refine ⟨fun c hc => ?_, h.1.2⟩
  have hc2 := List.any_eq_false.mp h.1.1.2 c hc
  simpa using hc2

/-- C7 witness: the amended theorem applied to concrete accepted names,
including one using the trailing-newline extension case. -/
theorem claim_c7_witness :
    is_safe_filename ('a' :: '_' :: '-' :: gifExtLower) = true ∧
    is_safe_filename ('b' :: (gifExtUpper ++ ['\n'])) = true ∧
    isSepChar 'a' = false := by
  refine ⟨?_, ?_, ?_⟩
  · exact (claim_c7_amended.2.2.2.2.1 _).mpr
      ⟨['a', '_', '-'], gifExtLower, by decide, by decide, Or.inl rfl, rfl⟩
  · exact (claim_c7_amended.2.2.2.2.1 _).mpr
      ⟨['b'], gifExtUpper ++ ['\n'], by decide, by decide,
        Or.inr (Or.inr (Or.inr rfl)), rfl⟩
  · exact ((claim_c7_amended.2.2.2.2.2 ('a' :: '_' :: '-' :: gifExtLower)
      ((claim_c7_amended.2.2.2.2.1 _).mpr
        ⟨['a', '_', '-'], gifExtLower, by decide, by decide, Or.inl rfl, rfl⟩)).1
      'a' (by decide))

/-- C9: a first request from an untracked client is always admitted and
creates a record with count 1 (upload count 1 for uploads), with no
ceiling comparison — in particular even when both configured ceilings
are 0. -/
theorem claim_c9_first_request (maxReq maxUp : ℕ) (window t : ℚ) (u : Bool) :
    check_rate_limit maxReq maxUp window none t u =
      (true, ⟨1, if u then 1 else 0, t + window⟩) ∧
    (check_rate_limit 0 0 window none t u).1 = true := by
  exact ⟨rfl, rfl⟩

/-- C6 counterexample: a client whose counter has reached the ceiling
(default 10) and whose window-reset timestamp is 100 is still denied by
a call at time exactly 100, although the claim says any call at a time
greater than or equal to the reset timestamp is admitted. -/
theorem claim_c6_counterexample :
    (100 : ℚ) ≤ 100 ∧
    (check_rate_limit 10 3 60 (some ⟨10, 0, 100⟩) 100 false).1 = false := by
  exact ⟨le_refl _, by decide⟩

/-- C6 amended: with a positive general ceiling (and, for uploads, a
positive upload ceiling), a rate-limited client is re-admitted with
reset counters exactly on calls strictly after the window-reset
timestamp; every call at or before the timestamp is denied. -/
theorem claim_c6_amended (maxReq maxUp : ℕ) (window t : ℚ) (r : RLRecord) (u : Bool)
    (hpos : 0 < maxReq) (hfull : maxReq ≤ r.count) (hup : u = true → 0 < maxUp) :
    (r.resetTime < t →
      (check_rate_limit maxReq maxUp window (some r) t u).1 = true ∧
      (check_rate_limit maxReq maxUp window (some r) t u).2 =
        ⟨1, if u then 1 else 0, t + window⟩) ∧
    (t ≤ r.resetTime → (check_rate_limit maxReq maxUp window (some r) t u).1 = false) := by
  constructor
  · intro hlt
    have hnr : ¬(maxReq ≤ (0 : ℕ)) := by omega
    cases u with
    | false =>
      constructor <;> simp [check_rate_limit, if_pos hlt, hnr]
    | true =>
      have hmu : ¬(maxUp ≤ (0 : ℕ)) := by
        have := hup rfl
        omega
      constructor <;> simp [check_rate_limit, if_pos hlt, hnr, hmu]
  · intro hle
    have hnlt : ¬(r.resetTime < t) := not_lt.mpr hle
    simp [check_rate_limit, hnlt, hfull]

/-- C6 witness: the amended theorem at a concrete record (count at the
ceiling 10, reset time 100): admitted at time 160, denied at time 50. -/
theorem claim_c6_witness :
    (check_rate_limit 10 3 60 (some ⟨10, 0, 100⟩) 160 false).1 = true ∧
    (check_rate_limit 10 3 60 (some ⟨10, 0, 100⟩) 50 false).1 = false := by
  have h1 := claim_c6_amended 10 3 60 160 ⟨10, 0, 100⟩ false (by norm_num) (by norm_num)
    (fun hc => absurd hc (by decide))
  have h2 := claim_c6_amended 10 3 60 50 ⟨10, 0, 100⟩ false (by norm_num) (by norm_num)
    (fun hc => absurd hc (by decide))
  exact ⟨(h1.1 (by norm_num)).1, h2.2 (by norm_num)⟩

/-- C10: `merge_gifs_grid` fails whenever fewer than two of the supplied
paths are valid existing files, and its single-GIF copy branch is
unreachable on every input. -/
theorem claim_c10_merge_guard (P : Type) (outPathOk : Bool) (valid : P → Bool)
    (gifPaths : List P) :
    ((gifPaths.filter valid).length < 2 →
      merge_gifs_grid outPathOk valid gifPaths = MergeOutcome.failed) ∧
    merge_gifs_grid outPathOk valid gifPaths ≠ MergeOutcome.copiedSingle := by
  by_cases he : gifPaths.isEmpty = true
  · constructor
    · intro _
      simp [merge_gifs_grid, he]
    · simp [merge_gifs_grid, he]
  · by_cases ho : outPathOk = true
    · by_cases hl : (gifPaths.filter valid).length < 2
      · constructor
        · intro _
          simp [merge_gifs_grid, he, ho, hl]
        · simp [merge_gifs_grid, he, ho, hl]
      · constructor
        · intro hc
          exact absurd hc hl
        · have hmin : ¬((20 : ℕ) ⊓ (gifPaths.filter valid).length = 1) := by
            omega
          simp [merge_gifs_grid, he, ho, hl, hmin]
    · have ho2 : outPathOk = false := by
        cases outPathOk
        · rfl
        · exact absurd rfl ho
      constructor
      · intro _
        simp [merge_gifs_grid, he, ho2]
      · simp [merge_gifs_grid, he, ho2]

/-- C10 witness: the guard theorem at concrete inputs — three supplied
paths none of which is valid fail the merge, and with all three valid
the outcome is not the single-GIF copy. -/
theorem claim_c10_witness :
    merge_gifs_grid true (fun _ : ℕ => false) [1, 2, 3] = MergeOutcome.failed ∧
    merge_gifs_grid true (fun _ : ℕ => true) [1, 2, 3] ≠ MergeOutcome.copiedSingle := by
  exact ⟨(claim_c10_merge_guard ℕ true (fun _ => false) [1, 2, 3]).1 (by decide),
    (claim_c10_merge_guard ℕ true (fun _ => true) [1, 2, 3]).2⟩

/-- C5: evaluation of the failing interleaving. With ceiling 1 and two
concurrent submissions, the schedule check-check-add-add (both capacity
checks run before either insertion, which the two separate `jobs_lock`
sections permit) drives the active-job count to 2, exceeding the
ceiling — the check and the insertion do not act as one atomic
check-and-increment. -/
theorem claim_c5_race_execution :
    (execSubmissions 1 2 [0, 1, 0, 1]).active = 2 ∧
    1 < (execSubmissions 1 2 [0, 1, 0, 1]).active ∧
    (execSubmissions 1 2 [0, 1, 0, 1]).pcs = [SubPC.added, SubPC.added] := by
  refine ⟨by decide, by decide, by decide⟩

lemma eraseKey_key_not_mem {c : List (ℕ × ℕ)} {k : ℕ}
    (hnd : (c.map Prod.fst).Nodup) : k ∉ (eraseKey c k).map Prod.fst := by
  induction c with
  | nil =>
    simp [eraseKey]
  | cons p rest ih =>
    simp only [List.map_cons, List.nodup_cons] at hnd
    by_cases hpk : p.1 = k
    · have herase : eraseKey (p :: rest) k = rest := by
        unfold eraseKey
        rw [List.eraseP_cons_of_pos]
        simpa using hpk
      rw [herase, ← hpk]
      exact hnd.1
    · have herase : eraseKey (p :: rest) k = p :: eraseKey rest k := by
        unfold eraseKey
        rw [List.eraseP_cons_of_neg]
        simpa using hpk
      rw [herase]
      simp only [List.map_cons, List.mem_cons]
      intro hm
      rcases hm with hm | hm
      · exact hpk hm.symm
      · exact ih hnd.2 hm

/-- C3: FIFO cache eviction. When a store pushes the entry count past
the configured maximum, exactly the oldest-inserted excess entries are
deleted (the table becomes the insertion-ordered suffix of permitted
size); for a table of 150 entries with maximum 100, the next store
leaves exactly 100 entries with each of the 50 oldest-inserted keys
absent. -/
theorem claim_c3_fifo_eviction (c : List (ℕ × ℕ)) (k v m : ℕ)
    (hnd : (c.map Prod.fst).Nodup) (hk : k ∉ c.map Prod.fst) :
    (m < c.length + 1 →
      cacheStore c k v m = (c ++ [(k, v)]).drop (c.length + 1 - m)) ∧
    (c.length = 150 → m = 100 →
      (cacheStore c k v m).length = 100 ∧
      ∀ i : Fin c.length, (i : ℕ) < 50 →
        (c.get i).1 ∉ (cacheStore c k v m).map Prod.fst) := by
  have hins : dictInsert c k v = c ++ [(k, v)] := by
    unfold dictInsert
    rw [if_neg hk]
  have hlen1 : (c ++ [(k, v)]).length = c.length + 1 := by simp
  have hgen : m < c.length + 1 →
      cacheStore c k v m = (c ++ [(k, v)]).drop (c.length + 1 - m) := by
    intro hm
    unfold cacheStore
    rw [hins]
    rw [if_pos (by omega : m < (c ++ [(k, v)]).length)]
    rw [delKeys_take_eq_drop]
    rw [hlen1]
  refine ⟨hgen, ?_⟩
  intro h150 h100
  subst h100
  have hm : (100 : ℕ) < c.length + 1 := by omega
  have hstore := hgen hm
  constructor
  · rw [hstore, List.length_drop, hlen1]
    omega
  · intro i hi hmem
    rw [hstore] at hmem
    have hmap : ((c ++ [(k, v)]).drop (c.length + 1 - 100)).map Prod.fst =
        ((c.map Prod.fst) ++ [k]).drop (c.length + 1 - 100) := by
      rw [List.map_drop, List.map_append]
      simp
    rw [hmap] at hmem
    have hd51 : c.length + 1 - 100 = 51 := by omega
    rw [hd51] at hmem
    have hkslen : (c.map Prod.fst).length = 150 := by simp [h150]
    have hdropapp : ((c.map Prod.fst) ++ [k]).drop 51 =
        (c.map Prod.fst).drop 51 ++ [k] := by
      rw [List.drop_append_of_le_length (by omega)]
    rw [hdropapp] at hmem
    rcases List.mem_append.mp hmem with hmem | hmem
    · -- the i-th key (i < 50) sits in the first 51 keys, disjoint from the dropped tail
      have hgetm : (c.get i).1 = (c.map Prod.fst).get ⟨i, by simp⟩ := by
        rw [List.get_map]
      have hi51 : (i : ℕ) < 51 := by omega
      have htk : (c.get i).1 ∈ (c.map Prod.fst).take 51 := by
        rw [hgetm]
        have hlt : (i : ℕ) < ((c.map Prod.fst).take 51).length := by
          rw [List.length_take]
          omega
        have hgt : ((c.map Prod.fst).take 51).get ⟨i, hlt⟩ =
            (c.map Prod.fst).get ⟨i, by simp⟩ := by
          simp [List.get_take]
        rw [← hgt]
        exact List.get_mem _ _ hlt
      have hsplit : (c.map Prod.fst).take 51 ++ (c.map Prod.fst).drop 51 =
          c.map Prod.fst := List.take_append_drop _ _
      have hnd2 : ((c.map Prod.fst).take 51 ++ (c.map Prod.fst).drop 51).Nodup := by
        rw [hsplit]
        exact hnd
      have hdisj := (List.nodup_append.mp hnd2).2.2
      exact hdisj htk hmem
    · have hmemc : c.get i ∈ c := by
        obtain ⟨iv, hiv⟩ := i
        exact List.get_mem c iv hiv
      have : (c.get i).1 ∈ c.map Prod.fst := List.mem_map.mpr ⟨c.get i, hmemc, rfl⟩
      rw [List.mem_singleton.mp hmem] at this
      exact hk this

/-- A concrete 150-entry cache table with keys 0..149 in insertion order. -/
def cacheTable150 : List (ℕ × ℕ) := (List.range 150).map (fun i => (i, i))

/-- C3 witness: storing a 151st entry into the concrete 150-entry table
with maximum 100 leaves 100 entries, and the oldest key 0 is gone. -/
theorem claim_c3_witness :
    (cacheStore cacheTable150 1000 7 100).length = 100 ∧
    (0 : ℕ) ∉ (cacheStore cacheTable150 1000 7 100).map Prod.fst := by
  have hmap : cacheTable150.map Prod.fst = List.range 150 := by
    rw [cacheTable150, List.map_map]
    exact List.map_id _
  have hnd : (cacheTable150.map Prod.fst).Nodup := by
    rw [hmap]
    exact List.nodup_range 150
  have hk : (1000 : ℕ) ∉ cacheTable150.map Prod.fst := by
    rw [hmap]
    simp [List.mem_range]
  have hlen : cacheTable150.length = 150 := by simp [cacheTable150]
  have h := (claim_c3_fifo_eviction cacheTable150 1000 7 100 hnd hk).2 hlen rfl
  refine ⟨h.1, ?_⟩
  have h0 := h.2 ⟨0, by omega⟩ (by norm_num)
  have hget : (cacheTable150.get ⟨0, by omega⟩).1 = 0 := rfl
  rw [hget] at h0
  exact h0

/-- C4: when the fingerprint hits a cache entry whose job has no
clip-prefixed artifacts left on disk, the submission does not reuse the
stale identifier: it evicts the stale entry, creates a fresh job with
the new identifier, and starts processing it. -/
theorem claim_c4_stale_cache (cache : List (ℕ × ℕ)) (key j fresh maxStored : ℕ)
    (validU : ℕ → Bool) (disk : ℕ → List (List Char))
    (hnd : (cache.map Prod.fst).Nodup)
    (hlook : alookup cache key = some j) (hvalid : validU j = true)
    (hgone : clipArtifacts (disk j) = []) (hfresh : fresh ≠ j) :
    (uploadCacheFlow cache key validU disk fresh maxStored).jobId = fresh ∧
    (uploadCacheFlow cache key validU disk fresh maxStored).cached = false ∧
    (uploadCacheFlow cache key validU disk fresh maxStored).workerStarted = true ∧
    alookup (uploadCacheFlow cache key validU disk fresh maxStored).cacheAfter key ≠
      some j := by
  have hflow : uploadCacheFlow cache key validU disk fresh maxStored =
      freshJobPath (eraseKey cache key) key fresh maxStored := by
    unfold uploadCacheFlow
    rw [hlook]
    simp [hvalid, hgone]
  rw [hflow]
  refine ⟨rfl, rfl, rfl, ?_⟩
  intro hsome
  have hknotin : key ∉ (eraseKey cache key).map Prod.fst := eraseKey_key_not_mem hnd
  have hins : dictInsert (eraseKey cache key) key fresh =
      eraseKey cache key ++ [(key, fresh)] := by
    unfold dictInsert
    rw [if_neg hknotin]
  have hmem : (key, j) ∈ cacheStore (eraseKey cache key) key fresh maxStored :=
    alookup_mem hsome
  have hmem2 := cacheStore_mem_insert hmem
  rw [hins] at hmem2
  rcases List.mem_append.mp hmem2 with hmem2 | hmem2
  · exact hknotin (List.mem_map.mpr ⟨(key, j), hmem2, rfl⟩)
  · have : fresh = j := by
      have := List.mem_singleton.mp hmem2
      injection this with h1 h2
      exact h2.symm
    exact hfresh this

/-- C4 witness: the stale-cache theorem at a concrete state — fingerprint
5 maps to job 77 whose directory is empty; resubmission yields the fresh
job 99 and the fingerprint no longer resolves to 77. -/
theorem claim_c4_witness :
    (uploadCacheFlow [(5, 77)] 5 (fun _ => true) (fun _ => []) 99 100).jobId = 99 ∧
    alookup (uploadCacheFlow [(5, 77)] 5 (fun _ => true) (fun _ => []) 99 100).cacheAfter 5 ≠
      some 77 := by
  have h := claim_c4_stale_cache [(5, 77)] 5 77 99 100 (fun _ => true) (fun _ => [])
    (by decide) (by decide) rfl rfl (by decide)
  exact ⟨h.1, h.2.2.2⟩

/-- C1 counterexample: a cancelled run writes the terminal `cancelled`
event, and the observer delivers it, but the observer's stream does not
end — the reader loop only stops on `complete` or `error`, so after
`cancelled` it keeps blocking on the drained queue (emitting
keepalives), refuting "the observer's stream ends once the terminal
event is delivered". -/
theorem claim_c1_counterexample :
    isTerminal Event.cancelled = true ∧
    taskEvents [['x']] false (some 0) = [Event.cancelled] ∧
    (readerTrace (taskEvents [['x']] false (some 0))).1 = [Event.cancelled] ∧
    (readerTrace (taskEvents [['x']] false (some 0))).2 = false := by
  exact ⟨rfl, rfl, rfl, rfl⟩

/-- C1 amended: every run writes exactly one terminal event, as the
final event on the queue (no event follows it); the observer delivers
the whole sequence, and its stream ends exactly when the terminal event
is `complete` or `error` — after a `cancelled` terminal the stream does
not end. -/
theorem claim_c1_terminal_stream (yields : List (List Char)) (raises : Bool)
    (cancelAt : Option ℕ) :
    (taskEvents yields raises cancelAt).countP (fun e => isTerminal e) = 1 ∧
    (∀ e ∈ (taskEvents yields raises cancelAt).dropLast, isTerminal e = false) ∧
    (readerTrace (taskEvents yields raises cancelAt)).1 = taskEvents yields raises cancelAt ∧
    ((readerTrace (taskEvents yields raises cancelAt)).2 = true ↔
      (taskEvents yields raises cancelAt).getLast? ≠ some Event.cancelled) := by
  obtain ⟨gs, t, heq, ht⟩ := taskGo_shape raises cancelAt yields 0 []
  have heq2 : taskEvents yields raises cancelAt = gs.map Event.gif ++ [t] := heq
  have hterm : isTerminal t = true := terminal_of_cases ht
  rw [heq2]
  refine ⟨?_, ?_, ?_, ?_⟩
  · rw [List.countP_append, List.countP_map]
    have hg0 : gs.countP ((fun e => isTerminal e) ∘ Event.gif) = 0 := by
      apply List.countP_eq_zero.mpr
      intro a _
      simp [isTerminal, Function.comp]
    rw [hg0]
    simp [hterm]
  · rw [List.dropLast_concat]
    intro e he
    obtain ⟨x, _, hx⟩ := List.mem_map.mp he
    rw [← hx]
    rfl
  · rw [readerTrace_gifs]
  · rw [readerTrace_gifs, List.getLast?_concat]
    rcases ht with ht | ht | ⟨n, ht⟩ <;> subst ht <;> simp [readerStopsOn]

/-- C1 witness: the amended theorem at a concrete successful run — one
artifact, terminal `complete`, and the reader terminates. -/
theorem claim_c1_witness :
    (taskEvents [clipName 0] false none).countP (fun e => isTerminal e) = 1 ∧
    (readerTrace (taskEvents [clipName 0] false none)).2 = true := by
  have h := claim_c1_terminal_stream [clipName 0] false none
  refine ⟨h.1, h.2.2.2.mpr ?_⟩
  decide

/-- C8: per-range encode failures are skipped without aborting the run.
For every clip list and every pattern of encoder success, the
uncancelled run emits one `gif` event per successful range in order,
terminates with `complete` carrying the success count, and the artifact
list is exactly the successfully encoded ranges' artifacts in order. -/
theorem claim_c8_skip_encode_failures (clips : List (ℚ × ℚ)) (encOk : ℕ → Bool) :
    taskRun (processVideoYields clips encOk) false none =
      ((processVideoYields clips encOk).map Event.gif ++
        [Event.complete (processVideoYields clips encOk).length],
       processVideoYields clips encOk) := by
  have hsafe := processVideoYields_safe clips encOk
  unfold taskRun
  rw [taskGo_no_cancel false (processVideoYields clips encOk) 0 [] hsafe]
  simp

/-- C2: scene subdivision. Durations of all output ranges are bounded by
the clamped maximum; with the clip cap off (the shipped default
`MAX_CLIPS = 0`) the output is exactly each valid short range kept
unchanged and each longer range replaced by consecutive sub-ranges of
the maximum length with the last possibly shorter; a positive clip cap
bounds the output length; and the spec's example subdivides as stated. -/
theorem claim_c2_subdivision (scenes : List (ℚ × ℚ)) (m : ℚ) (mc : ℕ) :
    (∀ r ∈ split_long_scenes scenes m mc, r.2 - r.1 ≤ clampDuration m) ∧
    (split_long_scenes scenes m 0 = scenes.flatMap (refineOne (clampDuration m))) ∧
    (∀ s e : ℚ, 0 ≤ s → s < e → e - s ≤ clampDuration m →
      refineOne (clampDuration m) (s, e) = [(s, e)]) ∧
    (∀ s e : ℚ, 0 ≤ s → s < e → clampDuration m < e - s →
      SpecConsecutiveCover (clampDuration m) s e (refineOne (clampDuration m) (s, e))) ∧
    (0 < mc → (split_long_scenes scenes m mc).length ≤ mc) ∧
    split_long_scenes [(0, 3), (3, 9), (9, 11)] 5 0 = [(0, 3), (3, 8), (8, 9), (9, 11)] := by
  have hclamp : 0 < clampDuration m := lt_of_lt_of_le one_pos (le_max_left _ _)
  refine ⟨?_, ?_, ?_, ?_, ?_, ?_⟩
  · intro r hr
    rcases splitGo_subset_or_le (clampDuration m) mc scenes [] r hr with h | h
    · simp at h
    · exact h
  · exact splitGo_zero (clampDuration m) scenes []
  · intro s e hs hse hd
    simp only [refineOne]
    rw [if_neg (by push_neg; exact ⟨hs, hse⟩), if_pos hd]
  · intro s e hs hse hd
    simp only [refineOne]
    rw [if_neg (by push_neg; exact ⟨hs, hse⟩), if_neg (not_le.mpr hd)]
    exact chunkFrom_cover (clampDuration m) e hclamp 0 s hse
  · intro hmc
    exact splitGo_cap (clampDuration m) mc hmc scenes [] (by simpa using hmc)
  · have hc5 : clampDuration 5 = 5 := by
      norm_num [clampDuration]
    unfold split_long_scenes
    rw [hc5, splitGo_zero]
    have hchunk : chunkFrom 5 9 0 0 3 = [(3, 8), (8, 9)] := by
      rw [chunkFrom]
      rw [dif_pos (by norm_num : (0 : ℚ) < 5 ∧ (3 : ℚ) < 9)]
      have hmin1 : min ((3 : ℚ) + 5) 9 = 8 := by norm_num
      simp only [hmin1, show ¬((0 : ℕ) < 0 ∧ 0 ≤ 0 + 1) from by omega, if_false]
      rw [chunkFrom]
      rw [dif_pos (by norm_num : (0 : ℚ) < 5 ∧ (8 : ℚ) < 9)]
      have hmin2 : min ((8 : ℚ) + 5) 9 = 9 := by norm_num
      simp only [hmin2, show ¬((0 : ℕ) < 0 ∧ 0 ≤ 1 + 1) from by omega, if_false]
      rw [chunkFrom]
      rw [dif_neg (by norm_num : ¬((0 : ℚ) < 5 ∧ (9 : ℚ) < 9))]
    norm_num [refineOne, hchunk]

/-- C2 witness: the subdivision theorem applied at the spec's example
and at a concrete capped configuration (one 100-second scene, cap 3). -/
theorem claim_c2_witness :
    split_long_scenes [(0, 3), (3, 9), (9, 11)] 5 0 = [(0, 3), (3, 8), (8, 9), (9, 11)] ∧
    (split_long_scenes [(0, 100)] 5 3).length ≤ 3 := by
  exact ⟨(claim_c2_subdivision [] 5 0).2.2.2.2.2,
    (claim_c2_subdivision [(0, 100)] 5 3).2.2.2.2.1 (by norm_num)⟩

end Gifomatic
